import Mathlib

/-!
Verification of the quantum-circuit dependency-graph pipeline.

The development shallowly embeds the two source files of the repository:

* `create_dependency.py`: builds the directed dependency graph of the
  two-qubit gate sequence of a circuit and serializes it as an edge list.
* `create_dataset.py` (`CircuitDataset`): parses the edge list and the
  node-attribute file, enumerates edge-window-removal variants, and
  replicates each variant into persisted samples.

Gates are modelled as pairs of qubit indices `(q0, q1)`: component `q0`
is the first (control) qubit and `q1` the second (target) qubit, exactly
as the element order of `qubit_indices` in the Python source.
-/

namespace QuantumOpt

/-- A two-qubit gate, as the tuple `(qubit_indices[0], qubit_indices[1])`
collected in `create_dependency`: first component is the control qubit,
second the target qubit. -/
abbrev Gate := Nat × Nat

/-! ## Dependency-graph builder (`create_dependency.py`, lines 69-80)

The inner loop scans `j` upward from `i+1`.  With `g = gates[i]` and the
suffix `gates.drop (i+1)` starting at absolute position `j`:

* if `gates[i][1] == gates[j][1]` the edge is appended and the scan `break`s;
* else if `gates[i][1] == gates[j][0]` the edge is appended and the scan
  continues.
-/

/-- Successor list of one gate `g`, scanning the later gates `l` whose first
element sits at absolute index `j`.  Mirrors the inner `for j` loop of
`create_dependency`, including the `break` after a target-target match. -/
def succList (g : Gate) : Nat → List Gate → List Nat
  | _, [] => []
  | j, h :: t =>
    if g.2 = h.2 then [j]
    else if g.2 = h.1 then j :: succList g (j + 1) t
    else succList g (j + 1) t

/-- The adjacency structure `G` produced by `create_dependency`:
`G[i]` is the successor list obtained by scanning the gates after `i`. -/
def create_dependency (gates : List Gate) : List (List Nat) :=
  gates.enum.map (fun p => succList p.2 (p.1 + 1) (gates.drop (p.1 + 1)))

/-- Adjacency list of source `i` (empty when `i` is out of range). -/
def adjAt (gates : List Gate) (i : Nat) : List Nat :=
  (create_dependency gates).getD i []

/-- Modelled from the claim wording only, for comparison with
`create_dependency`: rule 2 reads "gate[j].target equals gate[i].control",
i.e. `h.2 = g.1` for scanned gate `h` and source gate `g`. -/
def succListClaimed (g : Gate) : Nat → List Gate → List Nat
  | _, [] => []
  | j, h :: t =>
    if h.2 = g.2 then [j]
    else if h.2 = g.1 then j :: succListClaimed g (j + 1) t
    else succListClaimed g (j + 1) t

/-- The adjacency structure described by the claim wording. -/
def create_dependency_claimed (gates : List Gate) : List (List Nat) :=
  gates.enum.map (fun p => succListClaimed p.2 (p.1 + 1) (gates.drop (p.1 + 1)))

/-- Amended rule 2: "gate[j].control equals gate[i].target", i.e.
`h.1 = g.2`, which is what the source compares (`gates[i][1] == gates[j][0]`). -/
def succListAmended (g : Gate) : Nat → List Gate → List Nat
  | _, [] => []
  | j, h :: t =>
    if h.2 = g.2 then [j]
    else if h.1 = g.2 then j :: succListAmended g (j + 1) t
    else succListAmended g (j + 1) t

/-- The adjacency structure described by the amended claim wording. -/
def create_dependency_amended (gates : List Gate) : List (List Nat) :=
  gates.enum.map (fun p => succListAmended p.2 (p.1 + 1) (gates.drop (p.1 + 1)))

theorem succList_eq_amended (g : Gate) (j : Nat) (l : List Gate) :
    succList g j l = succListAmended g j l := by
  induction l generalizing j with
  | nil => rfl
  | cons h t ih =>
    simp only [succList, succListAmended]
    by_cases h1 : g.2 = h.2
    · rw [if_pos h1, if_pos h1.symm]
    · rw [if_neg h1, if_neg (show ¬h.2 = g.2 from fun e => h1 e.symm)]
      by_cases h2 : g.2 = h.1
      · rw [if_pos h2, if_pos h2.symm, ih]
      · rw [if_neg h2, if_neg (show ¬h.1 = g.2 from fun e => h2 e.symm), ih]

/-- Example gate sequence from the spec: `(control, target)` pairs. -/
def exampleGates : List Gate := [(0, 1), (1, 2), (0, 2)]

/-- The target of the gate at absolute index `k`, when it exists. -/
def targetAt? (gates : List Gate) (k : Nat) : Option Nat :=
  (gates[k]?).map Prod.snd

theorem succList_lower (g : Gate) (j : Nat) (l : List Gate) :
    ∀ k ∈ succList g j l, j ≤ k := by
  induction l generalizing j with
  | nil => intro k hk; simp [succList] at hk
  | cons h t ih =>
    intro k hk
    simp only [succList] at hk
    by_cases h1 : g.2 = h.2
    · rw [if_pos h1] at hk
      rcases List.mem_singleton.mp hk with rfl
      exact Nat.le_refl _
    · rw [if_neg h1] at hk
      by_cases h2 : g.2 = h.1
      · rw [if_pos h2] at hk
        rcases List.mem_cons.mp hk with rfl | hk
        · exact Nat.le_refl _
        · exact Nat.le_of_succ_le (ih (j + 1) k hk)
      · rw [if_neg h2] at hk
        exact Nat.le_of_succ_le (ih (j + 1) k hk)

theorem succList_pairwise (g : Gate) (j : Nat) (l : List Gate) :
    List.Pairwise (· < ·) (succList g j l) := by
  induction l generalizing j with
  | nil => simp [succList]
  | cons h t ih =>
    simp only [succList]
    by_cases h1 : g.2 = h.2
    · rw [if_pos h1]; simp
    · rw [if_neg h1]
      by_cases h2 : g.2 = h.1
      · rw [if_pos h2]
        refine List.Pairwise.cons (fun k hk => ?_) (ih (j + 1))
        exact Nat.lt_of_succ_le (succList_lower g (j + 1) t k hk)
      · rw [if_neg h2]; exact ih (j + 1)

/-- At most one successor of a source was added by the target-equals-target
rule: the scan breaks on the first such match. Stated over the scanned
suffix `l`, whose head sits at absolute index `j`. -/
theorem succList_countP_rule1 (g : Gate) (j : Nat) (l : List Gate) :
    (succList g j l).countP (fun k => ((l[k - j]?).map Prod.snd) == some g.2) ≤ 1 := by
  induction l generalizing j with
  | nil => simp [succList]
  | cons h t ih =>
    simp only [succList]
    by_cases h1 : g.2 = h.2
    · rw [if_pos h1]
      exact le_trans (List.countP_le_length _) (by simp)
    · rw [if_neg h1]
      have congrStep : ∀ k ∈ succList g (j + 1) t,
          ((((h :: t)[k - j]?).map Prod.snd) == some g.2) = true ↔
          (((t[k - (j + 1)]?).map Prod.snd) == some g.2) = true := by
        intro k hk
        have hjk : j + 1 ≤ k := succList_lower g (j + 1) t k hk
        have hidx : k - j = (k - (j + 1)) + 1 := by omega
        rw [hidx, List.getElem?_cons_succ]
      by_cases h2 : g.2 = h.1
      · rw [if_pos h2, List.countP_cons]
        have hpj : ((((h :: t)[j - j]?).map Prod.snd) == some g.2) = false := by
          simp only [Nat.sub_self, List.getElem?_cons_zero, Option.map_some']
          simp [beq_iff_eq]
          exact fun e => h1 e.symm
        rw [hpj]
        simpa [List.countP_congr congrStep] using ih (j + 1)
      · rw [if_neg h2]
        rw [List.countP_congr congrStep]
        exact ih (j + 1)

theorem adjAt_eq (gates : List Gate) (i : Nat) (g : Gate) (hg : gates[i]? = some g) :
    adjAt gates i = succList g (i + 1) (gates.drop (i + 1)) := by
  unfold adjAt create_dependency
  rw [List.getD_eq_getElem?_getD, List.getElem?_map, List.getElem?_enum, hg]
  rfl

theorem adjAt_eq_nil (gates : List Gate) (i : Nat) (h : gates.length ≤ i) :
    adjAt gates i = [] := by
  unfold adjAt create_dependency
  rw [List.getD_eq_getElem?_getD, List.getElem?_map, List.getElem?_enum,
    List.getElem?_eq_none (by simpa using h)]
  rfl

/-- C1 (counterexample): the adjacency structure built by the source is not
the one determined by the claimed rules.  The claim reads rule 2 as
"gate[j].target equals gate[i].control"; the source compares
`gates[i][1] == gates[j][0]`, i.e. gate[j].control against gate[i].target.
On gates `[(0,1),(1,2)]` the source adds edge (0,1) while the claimed
rules add no edge from 0. -/
theorem create_dependency_claim_counterexample :
    create_dependency [(0, 1), (1, 2)] ≠ create_dependency_claimed [(0, 1), (1, 2)] := by
  decide

/-- C1 (amended): for every gate sequence, the adjacency structure produced
by the builder is exactly the one determined by the first-match scan in
which rule 1 ("gate[j].target equals gate[i].target": add edge, stop the
inner scan) is checked before rule 2 ("gate[j].control equals gate[i].target":
add edge, continue), scanning j upward from i+1. -/
theorem create_dependency_first_match_characterization (gates : List Gate) :
    create_dependency gates = create_dependency_amended gates := by
  unfold create_dependency create_dependency_amended
  simp only [succList_eq_amended]

/-- C6: every edge (i, j) of the dependency graph satisfies i < j, each
source has at most one outgoing edge whose destination gate shares its
target (the target-equals-target rule), and a gate sequence of length at
most 1 yields an empty edge set. -/
theorem create_dependency_invariants (gates : List Gate) (i : Nat) :
    (∀ j ∈ adjAt gates i, i < j) ∧
    (adjAt gates i).countP (fun j => targetAt? gates j == targetAt? gates i) ≤ 1 ∧
    (gates.length ≤ 1 → adjAt gates i = []) := by
  by_cases hi : i < gates.length
  · obtain ⟨g, hg⟩ : ∃ g, gates[i]? = some g :=
      ⟨gates[i], List.getElem?_eq_getElem hi⟩
    rw [adjAt_eq gates i g hg]
    refine ⟨fun j hj => ?_, ?_, fun hlen => ?_⟩
    · exact Nat.lt_of_succ_le (succList_lower g (i + 1) (gates.drop (i + 1)) j hj)
    · have congrPred : ∀ k ∈ succList g (i + 1) (gates.drop (i + 1)),
          ((targetAt? gates k == targetAt? gates i) = true ↔
            ((((gates.drop (i + 1))[k - (i + 1)]?).map Prod.snd) == some g.2) = true) := by
        intro k hk
        have hik : i + 1 ≤ k := succList_lower g (i + 1) (gates.drop (i + 1)) k hk
        have hdrop : (gates.drop (i + 1))[k - (i + 1)]? = gates[k]? := by
          rw [List.getElem?_drop]
          congr 1
          omega
        unfold targetAt?
        rw [hdrop, hg]
        rfl
      rw [List.countP_congr congrPred]
      exact succList_countP_rule1 g (i + 1) (gates.drop (i + 1))
    · have : gates.drop (i + 1) = [] := by
        apply List.drop_eq_nil_of_le
        omega
      rw [this]
      rfl
  · rw [adjAt_eq_nil gates i (Nat.le_of_not_lt hi)]
    exact ⟨fun j hj => absurd hj (List.not_mem_nil j), by simp, fun _ => rfl⟩

/-- C6 witness: instantiation at concrete gate sequences, discharging the
membership and length hypotheses. -/
theorem create_dependency_invariants_witness :
    0 < 1 ∧ adjAt [(5, 5)] 0 = [] :=
  ⟨(create_dependency_invariants exampleGates 0).1 1 (by decide),
   (create_dependency_invariants [(5, 5)] 0).2.2 (by decide)⟩

/-- C10: for every gate sequence and every source index, the list of
destination indices is strictly increasing, and in particular contains no
duplicate destination: at most one edge is added per scanned j. -/
theorem create_dependency_adj_strict_mono (gates : List Gate) (i : Nat) :
    List.Pairwise (· < ·) (adjAt gates i) ∧ (adjAt gates i).Nodup := by
  have hpw : List.Pairwise (· < ·) (adjAt gates i) := by
    by_cases hi : i < gates.length
    · obtain ⟨g, hg⟩ : ∃ g, gates[i]? = some g :=
        ⟨gates[i], List.getElem?_eq_getElem hi⟩
      rw [adjAt_eq gates i g hg]
      exact succList_pairwise g (i + 1) (gates.drop (i + 1))
    · rw [adjAt_eq_nil gates i (Nat.le_of_not_lt hi)]
      exact List.Pairwise.nil
  exact ⟨hpw, hpw.imp Nat.ne_of_lt⟩

/-! ## Dataset generation (`create_dataset.py`, class `CircuitDataset`)

Edges are the `[src, dst]` pairs parsed from the edge list; a variant is a
reduced edge list with its `graph_class` label; a sample is the
`(node_features, edge_index, label)` triple saved by `generate_data`.
-/

/-- One directed dependency edge, as parsed by `CircuitDataset.process`. -/
abbrev Edge := Nat × Nat

/-- A per-gate feature row `[gate, qubit_1, qubit_2]`
(`CircuitDataset.process`, feature section). -/
abbrev Features := List (Nat × Nat × Nat)

/-- One record of the node-attribute JSON file. -/
structure GateAttr where
  gate : String
  qubit1 : Nat
  qubit2 : Nat
deriving DecidableEq, Repr

/-- The gate-type feature of `CircuitDataset.process`:
the conditional that yields 1 when the tag equals cx and 1 otherwise. -/
def gate_feature (tag : String) : Nat :=
  if tag = "cx" then 1 else 1

/-- The node-feature rows built from the attribute records. -/
def node_features (attrs : List GateAttr) : Features :=
  attrs.map (fun a => (gate_feature a.gate, a.qubit1, a.qubit2))

/-- One datapoint saved by `CircuitDataset.generate_data`
(`Data(x=node_features, edge_index=edges, y=label)`). -/
structure Sample where
  x : Features
  edge_index : List Edge
  y : Nat
deriving DecidableEq, Repr

/-- The edge list with the contiguous window from position i to i+w
removed, as computed by the tensor concatenation of the two slices
around the window in `process`. -/
def removeWindow (E : List Edge) (i w : Nat) : List Edge :=
  E.take i ++ E.drop (i + w)

/-- The Python loop bound `edges.size(1) - num_remove + 1`, computed in
signed arithmetic: a non-positive bound yields an empty `range`. -/
def numOffsets (m w : Nat) : Nat :=
  ((m : Int) - (w : Int) + 1).toNat

/-- All reduced edge lists for one window size `w`
(the inner `for i in range(...)` loop of `process`). -/
def windowVariants (E : List Edge) (w : Nat) : List (List Edge) :=
  (List.range (numOffsets E.length w)).map (fun i => removeWindow E i w)

/-- The window sizes `w, w+1, ..., w+k-1` of the outer loop, in order. -/
def windowsFrom (E : List Edge) : Nat → Nat → List (List Edge)
  | _, 0 => []
  | w, k + 1 => windowVariants E w ++ windowsFrom E (w + 1) k

/-- The edge lists of all variants generated by `process`, in generation
order: the full list first (`num_remove == 0`), then window sizes 1..W. -/
def allVariants (E : List Edge) (W : Nat) : List (List Edge) :=
  E :: windowsFrom E 1 W

/-- The running `graph_class` counter: each variant receives the next
label, starting from `c`. -/
def labelVariants : Nat → List (List Edge) → List (List Edge × Nat)
  | _, [] => []
  | c, v :: vs => (v, c) :: labelVariants (c + 1) vs

/-- The labeled variants of `process`, labels starting at 0. -/
def enumVariants (E : List Edge) (W : Nat) : List (List Edge × Nat) :=
  labelVariants 0 (allVariants E W)

/-- Replication, as `CircuitDataset.generate_data`: saves `R` datapoints,
each the same `Data(x, edge_index, y)`, at consecutive indices. -/
def generate_data (x : Features) (edges : List Edge) (y : Nat) : Nat → List Sample
  | 0 => []
  | r + 1 => ⟨x, edges, y⟩ :: generate_data x edges y r

/-- Emission of all datapoints of all variants, threading the running file
index: since the index increases by one per save, the persisted dataset is
this list, position = index. -/
def emitAll (x : Features) (R : Nat) : List (List Edge × Nat) → List Sample
  | [] => []
  | v :: vs => generate_data x v.1 v.2 R ++ emitAll x R vs

/-- The full persisted dataset of `CircuitDataset.process` for base edge
list `E`, maximum window `W` (`max_num_edge_remove`), replication `R`
(`num_instances`) and node features `x`, in index order. -/
def persistedSamples (E : List Edge) (W R : Nat) (x : Features) : List Sample :=
  emitAll x R (enumVariants E W)

/-- The sample total computed by `CircuitDataset.processed_file_names`:
`total = R; for i in range(1, W + 1): total += (m - i + 1) * R`, in signed
arithmetic. -/
def processedTotal (m W R : Nat) : Int :=
  (List.range W).foldl (fun total k => total + ((m : Int) - ((k : Int) + 1) + 1) * R) (R : Int)

/-- Modelled from the claim wording only: the claimed dataset-size formula
`R × (1 + Σ_{w=1}^{W} (m − w + 1))`, without any guard on `m − w + 1`. -/
def claimedDatasetSize (m W R : Nat) : Int :=
  R * (1 + ((List.range W).map (fun k => (m : Int) - ((k : Int) + 1) + 1)).sum)

theorem generate_data_eq_replicate (x : Features) (edges : List Edge) (y : Nat) (R : Nat) :
    generate_data x edges y R = List.replicate R ⟨x, edges, y⟩ := by
  induction R with
  | zero => rfl
  | succ r ih => simp [generate_data, ih, List.replicate_succ]

theorem emitAll_length (x : Features) (R : Nat) (vs : List (List Edge × Nat)) :
    (emitAll x R vs).length = R * vs.length := by
  induction vs with
  | nil => simp [emitAll]
  | cons v vs ih =>
    simp only [emitAll, List.length_append, ih, generate_data_eq_replicate,
      List.length_replicate, List.length_cons]
    ring

theorem labelVariants_length (c : Nat) (vs : List (List Edge)) :
    (labelVariants c vs).length = vs.length := by
  induction vs generalizing c with
  | nil => rfl
  | cons v vs ih => simp [labelVariants, ih]

theorem windowVariants_length (E : List Edge) (w : Nat) :
    (windowVariants E w).length = numOffsets E.length w := by
  simp [windowVariants]

theorem windowsFrom_length (E : List Edge) (k w : Nat) :
    (windowsFrom E w k).length
      = ((List.range k).map (fun j => numOffsets E.length (w + j))).sum := by
  induction k generalizing w with
  | zero => rfl
  | succ k ih =>
    have hmap : (List.range k).map (fun j => numOffsets E.length (w + 1 + j))
        = (List.range k).map (fun j => numOffsets E.length (w + (j + 1))) := by
      apply List.map_congr_left
      intro j _
      congr 1
      omega
    simp only [windowsFrom, List.length_append, windowVariants_length, ih, hmap,
      List.range_succ_eq_map, List.map_cons, List.map_map, List.sum_cons, Nat.add_zero]
    rfl

theorem getElem?_replicate_append_of_lt {α : Type} (a : α) (l : List α) {n m : Nat}
    (h : m < n) : (List.replicate n a ++ l)[m]? = some a := by
  rw [List.getElem?_append]
  simp [List.getElem?_replicate, h]

theorem getElem?_replicate_append_len {α : Type} (a : α) (l : List α) (n : Nat) :
    (List.replicate n a ++ l)[n]? = l[0]? := by
  rw [List.getElem?_append_right (by simp)]
  simp

theorem persistedSamples_cons_cons (E : List Edge) (x : Features) (hE : 1 ≤ E.length) :
    ∃ rest, persistedSamples E 2 10 x
      = List.replicate 10 (⟨x, E, 0⟩ : Sample)
        ++ (List.replicate 10 (⟨x, removeWindow E 0 1, 1⟩ : Sample) ++ rest) := by
  obtain ⟨m, hm⟩ : ∃ m, E.length = m + 1 := ⟨E.length - 1, by omega⟩
  have hoff : numOffsets E.length 1 = m + 1 := by
    unfold numOffsets
    rw [hm]
    omega
  have hw1 : windowVariants E 1 = removeWindow E 0 1 ::
      (List.range m).map (fun i => removeWindow E (i + 1) 1) := by
    unfold windowVariants
    rw [hoff, List.range_succ_eq_map, List.map_cons, List.map_map]
    rfl
  refine ⟨emitAll x 10 (labelVariants 2
      ((List.range m).map (fun i => removeWindow E (i + 1) 1)
        ++ (windowVariants E 2 ++ []))), ?_⟩
  unfold persistedSamples enumVariants allVariants
  have h2 : windowsFrom E 1 2 = windowVariants E 1 ++ (windowVariants E 2 ++ []) := rfl
  rw [h2, hw1]
  simp only [List.cons_append, labelVariants, emitAll, generate_data_eq_replicate]
  rfl

/-- C2: for a base edge list of length 4 and maximum window 2, the
enumerator produces exactly 8 variants, in the order: full list, then each
contiguous sub-range removal ordered by window size then offset, labeled
densely 0..7 in generation order. -/
theorem enumVariants_four_edges_window_two (e0 e1 e2 e3 : Edge) :
    enumVariants [e0, e1, e2, e3] 2 =
      [([e0, e1, e2, e3], 0),
       ([e1, e2, e3], 1), ([e0, e2, e3], 2), ([e0, e1, e3], 3), ([e0, e1, e2], 4),
       ([e2, e3], 5), ([e0, e3], 6), ([e0, e1], 7)] := rfl

/-- C3 (code evaluation at the failing input): for window sizes exceeding
the number of base edges, the variant emission is correctly empty, but the
sample total of `processed_file_names` adds the negative term
`(m − w + 1)·R`: with m = 0, W = 2, R = 10 it yields 0 while `process`
persists 10 samples. -/
theorem processedTotal_negative_term_at_zero_edges :
    windowVariants ([] : List Edge) 2 = [] ∧
    (persistedSamples [] 2 10 []).length = 10 ∧
    processedTotal 0 2 10 = 0 := by
  refine ⟨rfl, rfl, by decide⟩

/-- C4 (counterexample): the unguarded size formula
`R × (1 + Σ_{w=1}^{W} (m − w + 1))` does not equal the number of persisted
samples for every m: at m = 0, W = 2, R = 10 the formula gives 0 while 10
samples are persisted. -/
theorem claimedDatasetSize_counterexample :
    ((persistedSamples [] 2 10 []).length : Int) ≠ claimedDatasetSize 0 2 10 := by
  decide

/-- C4 (amended): the number of persisted samples equals
`R × (1 + Σ_{w=1}^{W} max(m − w + 1, 0))` (each window-size term clamped at
zero, which coincides with the claimed formula whenever W ≤ m), and within
one variant every replicated sample is identical: `generate_data` emits R
copies of the same (features, edges, label) triple. -/
theorem persisted_size_and_replication (E : List Edge) (W R : Nat) (x : Features) :
    (persistedSamples E W R x).length
      = R * (1 + ((List.range W).map (fun k => numOffsets E.length (k + 1))).sum) ∧
    ∀ edges y, generate_data x edges y R = List.replicate R ⟨x, edges, y⟩ := by
  constructor
  · unfold persistedSamples enumVariants allVariants
    rw [emitAll_length, labelVariants_length]
    have hmap : (List.range W).map (fun j => numOffsets E.length (1 + j))
        = (List.range W).map (fun k => numOffsets E.length (k + 1)) := by
      apply List.map_congr_left
      intro j _
      congr 1
      omega
    simp only [List.length_cons, windowsFrom_length, hmap]
    ring
  · intro edges y
    exact generate_data_eq_replicate x edges y R

/-- C5: persisted positions follow generation order with contiguous
replicas; with R = 10, position 0 is the full-graph variant (label 0),
position 9 is its last replica, and position 10 is the first replica of the
window-size-1 offset-0 variant (label 1). -/
theorem dataset_position_resolution (E : List Edge) (x : Features) (hE : 1 ≤ E.length) :
    (persistedSamples E 2 10 x)[0]? = some ⟨x, E, 0⟩ ∧
    (persistedSamples E 2 10 x)[9]? = some ⟨x, E, 0⟩ ∧
    (persistedSamples E 2 10 x)[10]? = some ⟨x, removeWindow E 0 1, 1⟩ := by
  obtain ⟨rest, hrest⟩ := persistedSamples_cons_cons E x hE
  rw [hrest]
  refine ⟨?_, ?_, ?_⟩
  · exact getElem?_replicate_append_of_lt _ _ (by omega)
  · exact getElem?_replicate_append_of_lt _ _ (by omega)
  · rw [getElem?_replicate_append_len]
    exact getElem?_replicate_append_of_lt _ _ (by omega)

/-- C5 witness: instantiation at the one-edge base list. -/
theorem dataset_position_resolution_witness :
    (persistedSamples [(0, 1)] 2 10 [])[10]? = some ⟨[], removeWindow [(0, 1)] 0 1, 1⟩ :=
  (dataset_position_resolution [(0, 1)] [] (by decide)).2.2

/-- C7 (counterexample): an attribute record whose gate tag is outside the
known vocabulary does not make the feature mapping fail; it is silently
mapped to the same constant feature value 1 as the known tag cx. -/
theorem gate_feature_claim_counterexample :
    node_features [⟨"zz", 3, 4⟩] = [(1, 3, 4)] ∧ gate_feature "zz" = gate_feature "cx" :=
  ⟨rfl, rfl⟩

/-- C7 (amended): the feature mapping is total and constant: every gate
tag, known or unknown, is mapped to the feature value 1, so feature
extraction never fails on a gate tag. -/
theorem node_features_constant_total (attrs : List GateAttr) :
    node_features attrs = attrs.map (fun a => (1, a.qubit1, a.qubit2)) := by
  unfold node_features gate_feature
  simp

theorem mem_emitAll_x (x : Features) (R : Nat) (vs : List (List Edge × Nat)) :
    ∀ s ∈ emitAll x R vs, s.x = x := by
  induction vs with
  | nil => intro s hs; simp [emitAll] at hs
  | cons v vs ih =>
    intro s hs
    rcases List.mem_append.mp hs with h | h
    · rw [generate_data_eq_replicate] at h
      rw [List.eq_of_mem_replicate h]
    · exact ih s h

/-- C9: node features are shared unmodified across every persisted sample:
any two generated samples carry equal feature rows, whatever edge window
was removed. -/
theorem node_features_shared_across_variants (E : List Edge) (W R : Nat) (x : Features)
    (s1 s2 : Sample) (h1 : s1 ∈ persistedSamples E W R x)
    (h2 : s2 ∈ persistedSamples E W R x) : s1.x = s2.x := by
  rw [mem_emitAll_x x R _ s1 h1, mem_emitAll_x x R _ s2 h2]

/-- C9 witness: two samples of different variants of a concrete dataset. -/
theorem node_features_shared_witness :
    (⟨[], [(0, 1)], 0⟩ : Sample).x = (⟨[], [], 1⟩ : Sample).x :=
  node_features_shared_across_variants [(0, 1)] 1 10 [] _ _ (by decide) (by decide)

/-! ## Edge-list interchange format

`create_dependency` writes one directed edge per line as
`f.write(f"{u} {v}\n")`; `CircuitDataset.process` reads the file back with
`src, dst = map(int, edge.strip().split())` per line.  Text is modelled as
`List Char`; decimal rendering of a natural number models the f-string
formatting, whitespace-run splitting models `str.split()`, and line
splitting models iterating the lines of the file.
-/

/-- The decimal digit character for `d < 10`. -/
def digitChar (d : Nat) : Char := Char.ofNat (48 + d)

/-- Decimal rendering, most significant digit first, prepended to `acc`. -/
def natCharsAux (n : Nat) (acc : List Char) : List Char :=
  if h : n < 10 then digitChar n :: acc
  else natCharsAux (n / 10) (digitChar (n % 10) :: acc)
termination_by n
decreasing_by exact Nat.div_lt_self (by omega) (by omega)

/-- The decimal rendering of `n`, as produced by the f-string. -/
def natChars (n : Nat) : List Char := natCharsAux n []

/-- Value of a decimal digit character, `none` on a non-digit. -/
def digitVal? (c : Char) : Option Nat :=
  if 48 ≤ c.toNat ∧ c.toNat ≤ 57 then some (c.toNat - 48) else none

/-- Left fold of decimal digits, as `int()` evaluates a digit string. -/
def parseNatAux : List Char → Nat → Option Nat
  | [], acc => some acc
  | c :: cs, acc =>
    match digitVal? c with
    | some d => parseNatAux cs (acc * 10 + d)
    | none => none

/-- Evaluation of a non-negative decimal token, as the int constructor;
none on the empty token or a non-digit token. -/
def parseNat? : List Char → Option Nat
  | [] => none
  | c :: cs => parseNatAux (c :: cs) 0

/-- Whitespace-run splitting with leading and trailing runs ignored,
as Python `str.split()` with no argument; `cur` is the reversed current
token. -/
def splitWSAux : List Char → List Char → List (List Char)
  | [], cur => if cur.isEmpty then [] else [cur.reverse]
  | c :: cs, cur =>
    if c.isWhitespace then
      if cur.isEmpty then splitWSAux cs [] else cur.reverse :: splitWSAux cs []
    else splitWSAux cs (c :: cur)

/-- Python `str.split()`. -/
def pySplit (l : List Char) : List (List Char) := splitWSAux l []

/-- Splitting file text into lines, as iterating a Python file object:
each yielded line drops its terminating newline, and a trailing newline
does not yield an extra empty line. -/
def splitLinesAux : List Char → List Char → List (List Char)
  | [], cur => if cur.isEmpty then [] else [cur.reverse]
  | c :: cs, cur =>
    if c = '\n' then cur.reverse :: splitLinesAux cs []
    else splitLinesAux cs (c :: cur)

/-- The lines of a text file. -/
def splitLines (l : List Char) : List (List Char) := splitLinesAux l []

/-- One serialized line `f"{u} {v}"` (without its newline). -/
def serializeEdge (e : Edge) : List Char :=
  natChars e.1 ++ ' ' :: natChars e.2

/-- The serialized edge-list file: one newline-terminated line per edge,
in order, as written by `create_dependency`. -/
def serializeEdgeList (es : List Edge) : List Char :=
  (es.map (fun e => serializeEdge e ++ ['\n'])).flatten

/-- Parsing one line: `src, dst = map(int, edge.strip().split())`.  The
unpacking requires exactly two tokens. -/
def parseEdgeLine? (l : List Char) : Option Edge :=
  match pySplit l with
  | [a, b] =>
    match parseNat? a, parseNat? b with
    | some u, some v => some (u, v)
    | _, _ => none
  | _ => none

/-- Parsing every line in order; any malformed line aborts the build. -/
def parseEdgeLines? : List (List Char) → Option (List Edge)
  | [] => some []
  | l :: ls =>
    match parseEdgeLine? l, parseEdgeLines? ls with
    | some e, some es => some (e :: es)
    | _, _ => none

/-- Parsing the whole edge-list file, as the edge loop of
`CircuitDataset.process`. -/
def parseEdgeFile? (cs : List Char) : Option (List Edge) :=
  parseEdgeLines? (splitLines cs)

theorem digitVal?_digitChar : ∀ d, d < 10 → digitVal? (digitChar d) = some d := by
  decide

theorem digitChar_not_ws : ∀ d, d < 10 → (digitChar d).isWhitespace = false := by
  decide

theorem natCharsAux_eq_append (n : Nat) :
    ∀ acc, natCharsAux n acc = natChars n ++ acc := by
  induction n using Nat.strong_induction_on with
  | _ n ih =>
    intro acc
    by_cases h : n < 10
    · conv_lhs => rw [natCharsAux]
      conv_rhs => rw [natChars, natCharsAux]
      rw [dif_pos h, dif_pos h]
      rfl
    · have hdiv : n / 10 < n := Nat.div_lt_self (by omega) (by omega)
      conv_lhs => rw [natCharsAux]
      conv_rhs => rw [natChars, natCharsAux]
      rw [dif_neg h, dif_neg h, ih (n / 10) hdiv, ih (n / 10) hdiv]
      simp

theorem natChars_step (n : Nat) (h : ¬n < 10) :
    natChars n = natChars (n / 10) ++ [digitChar (n % 10)] := by
  rw [natChars, natCharsAux, dif_neg h, natCharsAux_eq_append]

theorem natChars_ne_nil (n : Nat) : natChars n ≠ [] := by
  by_cases h : n < 10
  · rw [natChars, natCharsAux, dif_pos h]
    exact List.cons_ne_nil _ _
  · rw [natChars_step n h]
    simp

theorem natChars_digits (n : Nat) : ∀ c ∈ natChars n, ∃ d, d < 10 ∧ c = digitChar d := by
  induction n using Nat.strong_induction_on with
  | _ n ih =>
    intro c hc
    by_cases h : n < 10
    · rw [natChars, natCharsAux, dif_pos h] at hc
      rcases List.mem_singleton.mp hc with rfl
      exact ⟨n, h, rfl⟩
    · rw [natChars_step n h] at hc
      rcases List.mem_append.mp hc with hc | hc
      · exact ih (n / 10) (Nat.div_lt_self (by omega) (by omega)) c hc
      · rcases List.mem_singleton.mp hc with rfl
        exact ⟨n % 10, Nat.mod_lt n (by omega), rfl⟩

theorem natChars_not_ws (n : Nat) : ∀ c ∈ natChars n, c.isWhitespace = false := by
  intro c hc
  obtain ⟨d, hd, rfl⟩ := natChars_digits n c hc
  exact digitChar_not_ws d hd

theorem parseNatAux_append (l1 l2 : List Char) :
    ∀ acc m, parseNatAux l1 acc = some m →
      parseNatAux (l1 ++ l2) acc = parseNatAux l2 m := by
  induction l1 with
  | nil =>
    intro acc m hm
    injection hm with hm
    subst hm
    rfl
  | cons c cs ih =>
    intro acc m hm
    cases hdv : digitVal? c with
    | none =>
      simp only [parseNatAux, hdv] at hm
      exact Option.noConfusion hm
    | some d =>
      simp only [parseNatAux, hdv] at hm
      simp only [List.cons_append, parseNatAux, hdv]
      exact ih (acc * 10 + d) m hm

theorem parseNatAux_natChars (n : Nat) :
    ∀ acc, parseNatAux (natChars n) acc = some (acc * 10 ^ (natChars n).length + n) := by
  induction n using Nat.strong_induction_on with
  | _ n ih =>
    intro acc
    by_cases h : n < 10
    · rw [natChars, natCharsAux, dif_pos h]
      simp only [parseNatAux, digitVal?_digitChar n h]
      simp
    · have hdiv : n / 10 < n := Nat.div_lt_self (by omega) (by omega)
      rw [natChars_step n h]
      rw [parseNatAux_append _ _ acc _ (ih (n / 10) hdiv acc)]
      simp only [parseNatAux, digitVal?_digitChar (n % 10) (Nat.mod_lt n (by omega))]
      congr 1
      rw [List.length_append, List.length_singleton, pow_succ]
      have hmod := Nat.div_add_mod n 10
      set A := 10 ^ (natChars (n / 10)).length
      ring_nf
      omega

theorem parseNat?_natChars (n : Nat) : parseNat? (natChars n) = some n := by
  cases hc : natChars n with
  | nil => exact absurd hc (natChars_ne_nil n)
  | cons c cs =>
    rw [parseNat?, ← hc, parseNatAux_natChars]
    simp

theorem splitWSAux_nonws (c : Char) (hc : c.isWhitespace = false) (cs cur : List Char) :
    splitWSAux (c :: cs) cur = splitWSAux cs (c :: cur) := by
  simp [splitWSAux, hc]

theorem splitWSAux_space (cs cur : List Char) (h : cur.isEmpty = false) :
    splitWSAux (' ' :: cs) cur = cur.reverse :: splitWSAux cs [] := by
  simp [splitWSAux, h, show (' ' : Char).isWhitespace = true from rfl]

theorem splitWSAux_nil_of_nonempty (cur : List Char) (h : cur.isEmpty = false) :
    splitWSAux [] cur = [cur.reverse] := by
  simp [splitWSAux, h]

theorem splitWSAux_skip_token (a : List Char) (ha : ∀ c ∈ a, c.isWhitespace = false) :
    ∀ cs cur, splitWSAux (a ++ cs) cur = splitWSAux cs (a.reverse ++ cur) := by
  induction a with
  | nil => intro cs cur; simp
  | cons c a ih =>
    intro cs cur
    have hc : c.isWhitespace = false := ha c (List.mem_cons_self c a)
    rw [List.cons_append, splitWSAux_nonws c hc,
      ih (fun x hx => ha x (List.mem_cons_of_mem c hx)) cs (c :: cur)]
    simp

theorem pySplit_two_tokens (a b : List Char) (hane : a ≠ []) (hbne : b ≠ [])
    (ha : ∀ c ∈ a, c.isWhitespace = false) (hb : ∀ c ∈ b, c.isWhitespace = false) :
    pySplit (a ++ ' ' :: b) = [a, b] := by
  unfold pySplit
  rw [splitWSAux_skip_token a ha, List.append_nil,
    splitWSAux_space _ _ (by simp [List.isEmpty_iff, hane]),
    show b = b ++ ([] : List Char) from (List.append_nil b).symm,
    splitWSAux_skip_token b hb, List.append_nil,
    splitWSAux_nil_of_nonempty _ (by simp [List.isEmpty_iff, hbne])]
  simp

theorem parseEdgeLine?_serializeEdge (e : Edge) :
    parseEdgeLine? (serializeEdge e) = some e := by
  unfold parseEdgeLine? serializeEdge
  rw [pySplit_two_tokens _ _ (natChars_ne_nil e.1) (natChars_ne_nil e.2)
    (natChars_not_ws e.1) (natChars_not_ws e.2)]
  simp [parseNat?_natChars]

theorem splitLinesAux_nonnl (c : Char) (hc : ¬c = '\n') (cs cur : List Char) :
    splitLinesAux (c :: cs) cur = splitLinesAux cs (c :: cur) := by
  simp [splitLinesAux, hc]

theorem splitLinesAux_newline (cs cur : List Char) :
    splitLinesAux ('\n' :: cs) cur = cur.reverse :: splitLinesAux cs [] := by
  simp [splitLinesAux]

theorem splitLinesAux_skip_line (l : List Char) (hl : '\n' ∉ l) :
    ∀ cs cur, splitLinesAux (l ++ cs) cur = splitLinesAux cs (l.reverse ++ cur) := by
  induction l with
  | nil => intro cs cur; simp
  | cons c l ih =>
    intro cs cur
    have hc : ¬c = '\n' := fun e => hl (e ▸ List.mem_cons_self c l)
    rw [List.cons_append, splitLinesAux_nonnl c hc,
      ih (fun hx => hl (List.mem_cons_of_mem c hx)) cs (c :: cur)]
    simp

theorem splitLines_flatten (lines : List (List Char))
    (h : ∀ l ∈ lines, '\n' ∉ l) :
    splitLines ((lines.map (fun l => l ++ ['\n'])).flatten) = lines := by
  induction lines with
  | nil => rfl
  | cons l ls ih =>
    simp only [List.map_cons, List.flatten_cons, List.append_assoc, List.singleton_append]
    unfold splitLines
    rw [splitLinesAux_skip_line l (h l (List.mem_cons_self l ls)), List.append_nil,
      splitLinesAux_newline, List.reverse_reverse]
    rw [show splitLinesAux ((List.map (fun l => l ++ ['\n']) ls).flatten) []
        = splitLines ((List.map (fun l => l ++ ['\n']) ls).flatten) from rfl,
      ih (fun x hx => h x (List.mem_cons_of_mem l hx))]

theorem serializeEdge_no_newline (e : Edge) : '\n' ∉ serializeEdge e := by
  intro hmem
  unfold serializeEdge at hmem
  rcases List.mem_append.mp hmem with h | h
  · have := natChars_not_ws e.1 _ h
    simp at this
  · rcases List.mem_cons.mp h with h | h
    · exact absurd h (by decide)
    · have := natChars_not_ws e.2 _ h
      simp at this

/-- C8: serializing an ordered edge list to the interchange text format
(one line per edge, source index, one space, destination index, each line
newline-terminated) and re-parsing that text yields the identical ordered
edge sequence. -/
theorem edge_list_round_trip (es : List Edge) :
    parseEdgeFile? (serializeEdgeList es) = some es := by
  unfold parseEdgeFile? serializeEdgeList
  rw [show es.map (fun e => serializeEdge e ++ ['\n'])
      = (es.map serializeEdge).map (fun l => l ++ ['\n']) by rw [List.map_map]; rfl]
  rw [splitLines_flatten _ (by
    intro l hl
    obtain ⟨e, _, rfl⟩ := List.mem_map.mp hl
    exact serializeEdge_no_newline e)]
  induction es with
  | nil => rfl
  | cons e es ih =>
    simp only [List.map_cons, parseEdgeLines?, parseEdgeLine?_serializeEdge e, ih]

end QuantumOpt
